import Mathlib

/-!
Verification of the text-analysis pipeline of `src/text_analyzer.py`
(tokenize → remove_stopwords → count → rank → save_ranking).

The Python functions are shallowly embedded as executable Lean
definitions operating on `String` / `List Char` / `List String`.
Machine-level details that do not affect the verified claims are
modelled as follows:

* Python's `str.lower` is modelled per character on the ASCII range
  (`lowerChar`), matching the behaviour relevant to the ASCII-only
  token alphabet `[a-zA-Z0-9']` of the tokenizer regex.
* `collections.Counter` built from a list is modelled as the
  association list `counter`: keys in first-insertion order (the
  documented iteration order of Python dicts/Counters), each mapped to
  its total occurrence count.
* `Counter.most_common(n)` is documented by CPython as
  `sorted(items, reverse=True, key=count)[:n]` with a stable sort and
  `[]` for `n ≤ 0`; it is modelled by the stable insertion sort
  `sortByCountDesc` followed by `take`.
* The file written by `save_ranking` is modelled as the string obtained
  by concatenating the written lines; `str(count)` is modelled by the
  decimal renderer `decimalChars`.
-/

namespace TextAnalyzer

/-- Code points accepted by the tokenizer regex `[a-zA-Z0-9']`:
lowercase letters (97–122), uppercase letters (65–90), digits (48–57),
apostrophe (39). -/
def isTokenChar (c : Char) : Bool :=
  (97 ≤ c.toNat && c.toNat ≤ 122) || (65 ≤ c.toNat && c.toNat ≤ 90) ||
    (48 ≤ c.toNat && c.toNat ≤ 57) || c.toNat == 39

/-- The lowercase-only token alphabet: lowercase letters, digits,
apostrophe.  Used to state that tokens are lowercase. -/
def isLowerTokenChar (c : Char) : Bool :=
  (97 ≤ c.toNat && c.toNat ≤ 122) || (48 ≤ c.toNat && c.toNat ≤ 57) || c.toNat == 39

/-- Models Python `str.lower` per character: uppercase ASCII letters are
shifted to lowercase, all other characters are unchanged. -/
def lowerChar (c : Char) : Char :=
  if 65 ≤ c.toNat ∧ c.toNat ≤ 90 then Char.ofNat (c.toNat + 32) else c

/-- Scanner extracting the maximal runs of token characters, in order.
`cur` is the run currently being read.  This models
`re.findall(r"[a-zA-Z0-9']+", ·)`. -/
def scanTokens : List Char → List Char → List (List Char)
  | [], cur => if cur = [] then [] else [cur]
  | c :: cs, cur =>
    if isTokenChar c then scanTokens cs (cur ++ [c])
    else if cur = [] then scanTokens cs []
    else cur :: scanTokens cs []

/-- `tokenize` from the source: lowercase the text and extract the
maximal runs matching `[a-zA-Z0-9']+`. -/
def tokenize (text : String) : List String :=
  (scanTokens (text.data.map lowerChar) []).map (fun l => String.mk l)

/-- `DEFAULT_STOPWORDS` from the source (as a list; only membership is
ever used). -/
def DEFAULT_STOPWORDS : List String :=
  ["dan", "yang", "di", "ke", "dari", "untuk", "pada", "dengan", "atau", "ini", "itu", "adalah",
   "the", "a", "an", "and", "or", "to", "of", "in", "on", "for", "with", "is", "are", "was", "were"]

/-- `remove_stopwords` from the source:
`[t for t in tokens if t not in stopwords and len(t) >= min_len]`. -/
def remove_stopwords (tokens : List String) (stopwords : List String) (min_len : Nat) :
    List String :=
  tokens.filter (fun t => !(stopwords.contains t) && min_len ≤ t.length)

/-- The keys of `Counter(l)` in insertion order: first occurrences,
in order of first appearance (Python dicts iterate in insertion
order). -/
def counterKeys (l : List String) : List String :=
  l.foldl (fun acc t => if t ∈ acc then acc else acc ++ [t]) []

/-- The first occurrences of the elements of `l`, in order of first
appearance.  Recursive reformulation of `counterKeys`, used in
proofs. -/
def firstOccs : List String → List String
  | [] => []
  | t :: ts => t :: (firstOccs ts).filter (fun a => a != t)

/-- `Counter(l)` as an association list: keys in first-insertion order,
each with its total occurrence count. -/
def counter (l : List String) : List (String × Nat) :=
  (counterKeys l).map (fun t => (t, l.count t))

/-- Insert a pair into a list sorted by count descending, after all
entries with a count ≥ its own (stable insertion). -/
def insertByCount (p : String × Nat) : List (String × Nat) → List (String × Nat)
  | [] => [p]
  | q :: qs => if q.2 ≤ p.2 then p :: q :: qs else q :: insertByCount p qs

/-- Stable insertion sort by count descending: entries with equal
counts keep their relative order. -/
def sortByCountDesc : List (String × Nat) → List (String × Nat)
  | [] => []
  | p :: ps => insertByCount p (sortByCountDesc ps)

/-- `Counter.most_common(n)`: the `n` highest-count entries, count
descending, ties in insertion order (CPython: a stable descending sort
truncated to `n`; `[]` when `n ≤ 0`). -/
def most_common (c : List (String × Nat)) (n : Int) : List (String × Nat) :=
  if n ≤ 0 then [] else (sortByCountDesc c).take n.toNat

/-- The `AnalysisResult` dataclass from the source. -/
structure AnalysisResult where
  char_count : Nat
  word_count : Nat
  top_n : Int
  most_common : List (String × Nat)
  frequencies : List (String × Nat)
deriving Repr, DecidableEq

/-- `analyze_text` from the source. -/
def analyze_text (text : String) (top_n : Int) (stopwords : List String) : AnalysisResult :=
  let char_count := text.data.length
  let tokens := tokenize text
  let filtered := remove_stopwords tokens stopwords 3
  let word_count := filtered.length
  let freq_counter := counter filtered
  { char_count := char_count
    word_count := word_count
    top_n := top_n
    most_common := most_common freq_counter top_n
    frequencies := freq_counter }

/-- The decimal digit character for `d` (`d ≤ 9`): code point 48+d. -/
def digitChar (d : Nat) : Char := Char.ofNat (48 + d)

/-- Big-endian decimal digits of `n` accumulated onto `acc`; `fuel`
bounds the recursion (`n ≤ fuel` suffices). -/
def natDigitsCore : Nat → Nat → List Char → List Char
  | 0, _, acc => acc
  | fuel + 1, n, acc =>
    if n = 0 then acc else natDigitsCore fuel (n / 10) (digitChar (n % 10) :: acc)

/-- Decimal representation of `n`, modelling Python `str(count)`. -/
def decimalChars (n : Nat) : List Char :=
  if n = 0 then [digitChar 0] else natDigitsCore n n []

/-- The lines `save_ranking` writes: the header, the separator, then
one `token<TAB>count` line per ranked pair, in rank order. -/
def rankingLines (mc : List (String × Nat)) : List String :=
  "Top Word Frequencies" :: "====================" ::
    mc.map (fun p => String.mk (p.1.data ++ '\t' :: decimalChars p.2))

/-- `save_ranking` from the source, modelling the written file as the
concatenation of the written lines, each terminated by a newline. -/
def save_ranking (mc : List (String × Nat)) : String :=
  String.mk (((rankingLines mc).map (fun l => l.data ++ ['\n'])).flatten)

/-- Numeric value of a decimal digit character, if it is one. -/
def digitVal? (c : Char) : Option Nat :=
  if 48 ≤ c.toNat ∧ c.toNat ≤ 57 then some (c.toNat - 48) else none

/-- Left-to-right decimal parse of `l` continuing the value `acc`;
fails on a non-digit. -/
def parseNatAux : List Char → Nat → Option Nat
  | [], acc => some acc
  | c :: cs, acc =>
    match digitVal? c with
    | some d => parseNatAux cs (10 * acc + d)
    | none => none

/-- Parse a nonempty all-digit string as a natural number. -/
def parseNat? (l : List Char) : Option Nat :=
  if l = [] then none else parseNatAux l 0

/-- Split a character list on a separator character (the pieces do not
contain the separator; n separators yield n+1 pieces). -/
def splitOnChar (sep : Char) : List Char → List (List Char)
  | [] => [[]]
  | c :: cs =>
    if c = sep then [] :: splitOnChar sep cs
    else
      match splitOnChar sep cs with
      | [] => [[c]]
      | r :: rs => (c :: r) :: rs

/-- Parse one data row by splitting it on the tab character: it must
split into exactly a token and a decimal count. -/
def parseRow (line : List Char) : Option (String × Nat) :=
  match splitOnChar '\t' line with
  | [tok, cnt] => (parseNat? cnt).map (fun c => (String.mk tok, c))
  | _ => none

/-- Parse a ranking file: split into lines, drop the header and the
separator, and parse every remaining well-formed data row. -/
def parseRanking (file : String) : List (String × Nat) :=
  ((splitOnChar '\n' file.data).drop 2).filterMap parseRow

/-- Lookup of a token's count in an association-list frequency table. -/
def lookupCount (c : List (String × Nat)) (t : String) : Option Nat :=
  (c.find? (fun q => q.1 == t)).map Prod.snd

/-- Specification-side predicate: `MaxRuns l rs` holds when `rs` is
the list of the maximal runs of token characters inside `l`, in
order.  Separator characters are dropped one at a time; a run must be
nonempty, consist of token characters, and extend to the next
separator (or the end). -/
inductive MaxRuns : List Char → List (List Char) → Prop where
  | nil : MaxRuns [] []
  | sep {l : List Char} {rs : List (List Char)} (c : Char)
      (hc : isTokenChar c = false) (h : MaxRuns l rs) : MaxRuns (c :: l) rs
  | run {l : List Char} {rs : List (List Char)} (r : List Char)
      (hne : r ≠ [])
      (hall : ∀ c ∈ r, isTokenChar c = true)
      (hmax : ∀ c l', l = c :: l' → isTokenChar c = false)
      (h : MaxRuns l rs) : MaxRuns (r ++ l) (r :: rs)

/-! ### Lemmas about the filter stage -/

theorem mem_remove_stopwords {toks sw : List String} {m : Nat} {t : String} :
    t ∈ remove_stopwords toks sw m ↔ t ∈ toks ∧ t ∉ sw ∧ m ≤ t.length := by
  simp [remove_stopwords, List.mem_filter, and_assoc]

theorem count_remove_stopwords (toks sw : List String) (m : Nat) (t : String) :
    (remove_stopwords toks sw m).count t
      = if t ∉ sw ∧ m ≤ t.length then toks.count t else 0 := by
  by_cases h : t ∉ sw ∧ m ≤ t.length
  · rw [if_pos h, remove_stopwords, List.count_filter]
    simp [h.1, h.2]
  · rw [if_neg h, List.count_eq_zero]
    intro hmem
    exact h (mem_remove_stopwords.mp hmem).2

/-- C3: `remove_stopwords` returns the subsequence of its input
(relative order preserved, no reordering or duplication) in which a
token is excluded exactly when it is a stopword or shorter than the
threshold. -/
theorem remove_stopwords_subsequence_spec (toks sw : List String) (m : Nat) :
    (remove_stopwords toks sw m).Sublist toks ∧
    (∀ t, t ∈ remove_stopwords toks sw m ↔ t ∈ toks ∧ t ∉ sw ∧ m ≤ t.length) ∧
    (∀ t, (remove_stopwords toks sw m).count t
        = if t ∉ sw ∧ m ≤ t.length then toks.count t else 0) :=
  ⟨List.filter_sublist toks, fun _ => mem_remove_stopwords,
    fun t => count_remove_stopwords toks sw m t⟩

/-! ### Lemmas about the tokenizer -/

theorem toNat_ofNat_lt {n : Nat} (h : n < 0xd800) : (Char.ofNat n).toNat = n := by
  have hv : n.isValidChar := Or.inl h
  simp [Char.ofNat, hv, Char.ofNatAux, Char.toNat, UInt32.toNat]

theorem isLowerTokenChar_lowerChar {c : Char}
    (h : isTokenChar (lowerChar c) = true) : isLowerTokenChar (lowerChar c) = true := by
  by_cases hc : 65 ≤ c.toNat ∧ c.toNat ≤ 90
  · have he : lowerChar c = Char.ofNat (c.toNat + 32) := by rw [lowerChar, if_pos hc]
    have ht : (lowerChar c).toNat = c.toNat + 32 := by
      rw [he, toNat_ofNat_lt (by omega)]
    simp only [isLowerTokenChar, ht, Bool.or_eq_true, Bool.and_eq_true, decide_eq_true_eq,
      Nat.beq_eq_true_eq, beq_iff_eq]
    omega
  · have he : lowerChar c = c := by rw [lowerChar, if_neg hc]
    rw [he] at h ⊢
    simp only [isTokenChar, isLowerTokenChar, Bool.or_eq_true, Bool.and_eq_true,
      decide_eq_true_eq, Nat.beq_eq_true_eq, beq_iff_eq] at h ⊢
    omega

theorem scanTokens_ne_nil (l : List Char) :
    ∀ (cur : List Char), ∀ t ∈ scanTokens l cur, t ≠ [] := by
  induction l with
  | nil =>
    intro cur t ht
    simp only [scanTokens] at ht
    split at ht
    · simp at ht
    · next hc =>
      rw [List.mem_singleton] at ht
      subst ht; exact hc
  | cons c0 cs ih =>
    intro cur t ht
    simp only [scanTokens] at ht
    split at ht
    · exact ih _ t ht
    · split at ht
      · exact ih _ t ht
      · next hc =>
        rcases List.mem_cons.mp ht with h | h
        · subst h; exact hc
        · exact ih _ t h

theorem scanTokens_chars (l : List Char) :
    ∀ (cur : List Char), ∀ t ∈ scanTokens l cur, ∀ c ∈ t,
      c ∈ cur ∨ (c ∈ l ∧ isTokenChar c = true) := by
  induction l with
  | nil =>
    intro cur t ht c hc
    simp only [scanTokens] at ht
    split at ht
    · simp at ht
    · rw [List.mem_singleton] at ht
      subst ht; exact Or.inl hc
  | cons c0 cs ih =>
    intro cur t ht c hc
    simp only [scanTokens] at ht
    split at ht
    · next htok =>
      rcases ih _ t ht c hc with h | h
      · rcases List.mem_append.mp h with h' | h'
        · exact Or.inl h'
        · rw [List.mem_singleton] at h'
          subst h'
          exact Or.inr ⟨List.mem_cons_self _ _, htok⟩
      · exact Or.inr ⟨List.mem_cons_of_mem _ h.1, h.2⟩
    · split at ht
      · rcases ih _ t ht c hc with h | h
        · simp at h
        · exact Or.inr ⟨List.mem_cons_of_mem _ h.1, h.2⟩
      · rcases List.mem_cons.mp ht with h | h
        · subst h; exact Or.inl hc
        · rcases ih _ t h c hc with h' | h'
          · simp at h'
          · exact Or.inr ⟨List.mem_cons_of_mem _ h'.1, h'.2⟩

theorem scanTokens_maxRuns (l : List Char) :
    ∀ (cur : List Char), (∀ c ∈ cur, isTokenChar c = true) →
      MaxRuns (cur ++ l) (scanTokens l cur) := by
  induction l with
  | nil =>
    intro cur hcur
    simp only [scanTokens]
    split
    · next hc => subst hc; exact MaxRuns.nil
    · next hc =>
      exact MaxRuns.run cur hc hcur (by intro c l' h; cases h) MaxRuns.nil
  | cons c0 cs ih =>
    intro cur hcur
    simp only [scanTokens]
    split
    · next htok =>
      have : cur ++ c0 :: cs = (cur ++ [c0]) ++ cs := by simp
      rw [this]
      refine ih (cur ++ [c0]) ?_
      intro c hc
      rcases List.mem_append.mp hc with h | h
      · exact hcur c h
      · rw [List.mem_singleton] at h; subst h; exact htok
    · next htok =>
      have htok' : isTokenChar c0 = false := Bool.eq_false_iff.mpr htok
      split
      · next hc =>
        subst hc
        exact MaxRuns.sep c0 htok' (by simpa using ih [] (by simp))
      · next hc =>
        refine MaxRuns.run cur hc hcur ?_ ?_
        · intro c l' h
          cases h
          exact htok'
        · exact MaxRuns.sep c0 htok' (by simpa using ih [] (by simp))

/-- C4: every token produced by `tokenize` is nonempty and consists
only of lowercase letters, digits and apostrophes; the tokens are
exactly the maximal token-character runs of the lowercased input;
empty input yields no tokens; and
`tokenize "Hello, World!" = ["hello", "world"]`. -/
theorem tokenize_lowercase_maximal_runs (text : String) :
    (∀ t ∈ tokenize text, t.data ≠ [] ∧ ∀ c ∈ t.data, isLowerTokenChar c = true) ∧
    MaxRuns (text.data.map lowerChar) ((tokenize text).map String.data) ∧
    tokenize "" = [] ∧ tokenize "Hello, World!" = ["hello", "world"] := by
  refine ⟨?_, ?_, rfl, by decide⟩
  · intro t ht
    simp only [tokenize, List.mem_map] at ht
    obtain ⟨r, hr, rfl⟩ := ht
    constructor
    · exact scanTokens_ne_nil _ _ r hr
    · intro c hc
      have hc' : c ∈ r := hc
      rcases scanTokens_chars _ _ r hr c hc' with h | h
      · simp at h
      · obtain ⟨hmem, htok⟩ := h
        rw [List.mem_map] at hmem
        obtain ⟨c', _, rfl⟩ := hmem
        exact isLowerTokenChar_lowerChar htok
  · have h := scanTokens_maxRuns (text.data.map lowerChar) [] (by simp)
    simp only [List.nil_append] at h
    have he : (tokenize text).map String.data = scanTokens (text.data.map lowerChar) [] := by
      simp only [tokenize, List.map_map]
      exact List.map_id _
    rw [he]
    exact h

/-- C6: on the empty input, `analyze_text` returns character count 0,
word count 0 and an empty ranked list, and `save_ranking` of the empty
ranked list writes exactly the header line and the separator line. -/
theorem analyze_empty_input (n : Int) (sw : List String) :
    (analyze_text "" n sw).char_count = 0 ∧
    (analyze_text "" n sw).word_count = 0 ∧
    (analyze_text "" n sw).most_common = [] ∧
    save_ranking [] = "Top Word Frequencies\n====================\n" := by
  refine ⟨rfl, rfl, ?_, by decide⟩
  show most_common [] n = []
  unfold most_common
  split <;> simp [sortByCountDesc]

/-- C7: `analyze_text "kata kata kata lain"` with `top_n = 1` and the
default stopword set ranks exactly the single entry `("kata", 3)`. -/
theorem analyze_kata_top1 :
    (analyze_text "kata kata kata lain" 1 DEFAULT_STOPWORDS).most_common = [("kata", 3)] := by
  decide

/-- C8: `analyze_text` is a pure function of its arguments, so two runs
on identical input produce the identical `AnalysisResult` (in
particular the same ranked list and the same frequency table). -/
theorem analyze_text_deterministic (text : String) (n : Int) (sw : List String) :
    analyze_text text n sw = analyze_text text n sw ∧
    (analyze_text text n sw).most_common = (analyze_text text n sw).most_common ∧
    (analyze_text text n sw).frequencies = (analyze_text text n sw).frequencies :=
  ⟨rfl, rfl, rfl⟩

/-! ### Counter and ranking lemmas -/

theorem counterKeys_go (l : List String) :
    ∀ acc, l.foldl (fun acc t => if t ∈ acc then acc else acc ++ [t]) acc
      = acc ++ (firstOccs l).filter (fun a => decide (a ∉ acc)) := by
  induction l with
  | nil => intro acc; simp [firstOccs]
  | cons t ts ih =>
    intro acc
    simp only [List.foldl_cons, firstOccs]
    by_cases hmem : t ∈ acc
    · rw [if_pos hmem, ih acc, List.filter_cons, if_neg (by simp [hmem])]
      rw [List.filter_filter]
      congr 1
      refine (List.filter_congr ?_).symm
      intro a _
      by_cases hat : a = t
      · subst hat; simp [hmem]
      · simp [hat, bne_iff_ne]
    · rw [if_neg hmem, ih (acc ++ [t]), List.filter_cons, if_pos (by simp [hmem])]
      rw [List.filter_filter, List.append_assoc, List.singleton_append]
      congr 2
      refine List.filter_congr ?_
      intro a _
      by_cases hat : a = t
      · subst hat; simp
      · simp [hat, bne_iff_ne]

theorem counterKeys_eq_firstOccs (l : List String) : counterKeys l = firstOccs l := by
  rw [counterKeys, counterKeys_go l []]
  simp

theorem mem_firstOccs {a : String} {l : List String} : a ∈ firstOccs l ↔ a ∈ l := by
  induction l with
  | nil => simp [firstOccs]
  | cons t ts ih =>
    simp only [firstOccs, List.mem_cons, List.mem_filter, bne_iff_ne, ih]
    by_cases hat : a = t
    · simp [hat]
    · simp [hat, decide_eq_true_eq]

theorem firstOccs_nodup (l : List String) : (firstOccs l).Nodup := by
  induction l with
  | nil => exact List.nodup_nil
  | cons t ts ih =>
    rw [firstOccs, List.nodup_cons]
    refine ⟨?_, ih.filter _⟩
    intro hmem
    rw [List.mem_filter] at hmem
    simp at hmem

theorem firstOccs_pairwise_indexOf (l : List String) :
    (firstOccs l).Pairwise (fun a b => l.indexOf a < l.indexOf b) := by
  induction l with
  | nil => exact List.Pairwise.nil
  | cons t ts ih =>
    rw [firstOccs, List.pairwise_cons]
    constructor
    · intro b hb
      rw [List.mem_filter] at hb
      have hbne : b ≠ t := by simpa [bne_iff_ne] using hb.2
      rw [List.indexOf_cons_self, List.indexOf_cons_ne _ (Ne.symm hbne)]
      exact Nat.succ_pos _
    · refine List.Pairwise.imp_of_mem ?_ (ih.filter _)
      intro a b ha hb hab
      rw [List.mem_filter] at ha hb
      have hat : a ≠ t := by simpa [bne_iff_ne] using ha.2
      have hbt : b ≠ t := by simpa [bne_iff_ne] using hb.2
      rw [List.indexOf_cons_ne _ (Ne.symm hat), List.indexOf_cons_ne _ (Ne.symm hbt)]
      exact Nat.succ_lt_succ hab

theorem insertByCount_perm (p : String × Nat) (l : List (String × Nat)) :
    (insertByCount p l).Perm (p :: l) := by
  induction l with
  | nil => exact List.Perm.refl _
  | cons q qs ih =>
    rw [insertByCount]
    split
    · exact List.Perm.refl _
    · exact (ih.cons q).trans (List.Perm.swap p q qs)

theorem mem_insertByCount {x p : String × Nat} {l : List (String × Nat)} :
    x ∈ insertByCount p l ↔ x = p ∨ x ∈ l := by
  rw [(insertByCount_perm p l).mem_iff]
  simp

theorem sortByCountDesc_perm (l : List (String × Nat)) :
    (sortByCountDesc l).Perm l := by
  induction l with
  | nil => exact List.Perm.refl _
  | cons p ps ih => exact (insertByCount_perm p (sortByCountDesc ps)).trans (ih.cons p)

theorem insertByCount_pairwise {R : (String × Nat) → (String × Nat) → Prop}
    {p : String × Nat} :
    ∀ {l : List (String × Nat)},
      l.Pairwise (fun a b => b.2 < a.2 ∨ (b.2 = a.2 ∧ R a b)) →
      (∀ q ∈ l, R p q) →
      (insertByCount p l).Pairwise (fun a b => b.2 < a.2 ∨ (b.2 = a.2 ∧ R a b)) := by
  intro l
  induction l with
  | nil => intro _ _; exact List.pairwise_singleton _ _
  | cons q qs ih =>
    intro hl hp
    rw [List.pairwise_cons] at hl
    rw [insertByCount]
    split
    · next hq =>
      rw [List.pairwise_cons]
      refine ⟨?_, List.pairwise_cons.mpr hl⟩
      intro x hx
      rcases List.mem_cons.mp hx with hxq | hxqs
      · subst hxq
        rcases Nat.lt_or_eq_of_le hq with h' | h'
        · exact Or.inl h'
        · exact Or.inr ⟨h', hp x (List.mem_cons_self _ _)⟩
      · rcases hl.1 x hxqs with h' | h'
        · exact Or.inl (Nat.lt_of_lt_of_le h' hq)
        · rcases Nat.lt_or_eq_of_le hq with h'' | h''
          · exact Or.inl ((h'.1 ▸ h''))
          · exact Or.inr ⟨h'.1.trans h'', hp x (List.mem_cons_of_mem _ hxqs)⟩
    · next hq =>
      rw [List.pairwise_cons]
      constructor
      · intro x hx
        rcases mem_insertByCount.mp hx with hxp | hxqs
        · subst hxp
          exact Or.inl (Nat.lt_of_not_le hq)
        · exact hl.1 x hxqs
      · exact ih hl.2 (fun x hx => hp x (List.mem_cons_of_mem _ hx))

theorem sortByCountDesc_pairwise {R : (String × Nat) → (String × Nat) → Prop} :
    ∀ {l : List (String × Nat)}, l.Pairwise R →
      (sortByCountDesc l).Pairwise (fun a b => b.2 < a.2 ∨ (b.2 = a.2 ∧ R a b)) := by
  intro l
  induction l with
  | nil => intro _; simp [sortByCountDesc]
  | cons p ps ih =>
    intro h
    rw [List.pairwise_cons] at h
    rw [sortByCountDesc]
    refine insertByCount_pairwise (ih h.2) ?_
    intro q hq
    exact h.1 q ((sortByCountDesc_perm ps).mem_iff.mp hq)

/-- C1: for every input text, stopword set and positive `top_n`, the
ranked list of `analyze_text` is pairwise ordered by count descending,
with equal counts ordered by the position of the token's first
appearance in the filtered token sequence (earlier first). -/
theorem ranked_list_ordering (text : String) (n : Int) (sw : List String) (h : 0 < n) :
    (analyze_text text n sw).most_common.Pairwise (fun p q =>
        q.2 < p.2 ∨ (q.2 = p.2 ∧
          (remove_stopwords (tokenize text) sw 3).indexOf p.1
            < (remove_stopwords (tokenize text) sw 3).indexOf q.1)) := by
  show (most_common (counter (remove_stopwords (tokenize text) sw 3)) n).Pairwise _
  rw [most_common, if_neg (by omega)]
  refine List.Pairwise.sublist (List.take_sublist _ _) ?_
  refine sortByCountDesc_pairwise ?_
  rw [counter, counterKeys_eq_firstOccs, List.pairwise_map]
  exact firstOccs_pairwise_indexOf _

theorem ranked_list_ordering_witness :
    ((0 : Int) < 2) ∧
    (analyze_text "bbb aaa aaa bbb ccc" 2 []).most_common.Pairwise (fun p q =>
        q.2 < p.2 ∨ (q.2 = p.2 ∧
          (remove_stopwords (tokenize "bbb aaa aaa bbb ccc") [] 3).indexOf p.1
            < (remove_stopwords (tokenize "bbb aaa aaa bbb ccc") [] 3).indexOf q.1)) :=
  ⟨by decide, ranked_list_ordering "bbb aaa aaa bbb ccc" 2 [] (by decide)⟩

theorem counter_map_fst (l : List String) : (counter l).map Prod.fst = firstOccs l := by
  rw [counter, counterKeys_eq_firstOccs, List.map_map]
  exact List.map_id _

theorem counter_length (l : List String) : (counter l).length = (firstOccs l).length := by
  rw [counter, counterKeys_eq_firstOccs, List.length_map]

/-- C5: the ranked list is empty when `top_n ≤ 0`; for positive
`top_n` its length is the minimum of `top_n` and the number of
distinct filtered tokens (`firstOccs` of the filtered sequence, which
is duplicate-free and contains exactly the filtered tokens); and when
all distinct tokens fit, the ranked list contains exactly the distinct
filtered tokens, with no padding entries. -/
theorem ranked_list_length (text : String) (n : Int) (sw : List String) :
    (n ≤ 0 → (analyze_text text n sw).most_common = []) ∧
    (0 < n → (analyze_text text n sw).most_common.length
        = min n.toNat (firstOccs (remove_stopwords (tokenize text) sw 3)).length) ∧
    ((firstOccs (remove_stopwords (tokenize text) sw 3)).Nodup ∧
      ∀ t, t ∈ firstOccs (remove_stopwords (tokenize text) sw 3)
          ↔ t ∈ remove_stopwords (tokenize text) sw 3) ∧
    (0 < n → (firstOccs (remove_stopwords (tokenize text) sw 3)).length ≤ n.toNat →
      ∀ t, t ∈ (analyze_text text n sw).most_common.map Prod.fst
          ↔ t ∈ remove_stopwords (tokenize text) sw 3) := by
  refine ⟨?_, ?_, ⟨firstOccs_nodup _, fun _ => mem_firstOccs⟩, ?_⟩
  · intro h
    show most_common (counter (remove_stopwords (tokenize text) sw 3)) n = []
    rw [most_common, if_pos h]
  · intro h
    show (most_common (counter (remove_stopwords (tokenize text) sw 3)) n).length = _
    rw [most_common, if_neg (by omega), List.length_take,
      (sortByCountDesc_perm _).length_eq, counter_length]
  · intro h hlen t
    show t ∈ (most_common (counter (remove_stopwords (tokenize text) sw 3)) n).map Prod.fst ↔ _
    rw [most_common, if_neg (by omega)]
    rw [List.take_of_length_le (by rw [(sortByCountDesc_perm _).length_eq, counter_length]; exact hlen)]
    rw [((sortByCountDesc_perm _).map Prod.fst).mem_iff, counter_map_fst]
    exact mem_firstOccs

theorem sum_map_zero (u : List String) : (u.map (fun _ => (0 : Nat))).sum = 0 := by
  induction u with
  | nil => rfl
  | cons x u' ih => simp [ih]

theorem sum_map_add (u : List String) (f g : String → Nat) :
    (u.map (fun t => f t + g t)).sum = (u.map f).sum + (u.map g).sum := by
  induction u with
  | nil => rfl
  | cons x u' ih => simp [ih]; omega

theorem sum_indicator_zero {a : String} {u : List String} (h : a ∉ u) :
    (u.map (fun t => if a == t then 1 else 0)).sum = 0 := by
  induction u with
  | nil => rfl
  | cons x u' ih =>
    have hax : ¬(a == x) = true := by
      simp only [beq_iff_eq]
      intro he; exact h (he ▸ List.mem_cons_self _ _)
    rw [List.map_cons, List.sum_cons, if_neg hax, ih (fun hm => h (List.mem_cons_of_mem _ hm))]

theorem sum_indicator_one {a : String} {u : List String} (hn : u.Nodup) (h : a ∈ u) :
    (u.map (fun t => if a == t then 1 else 0)).sum = 1 := by
  induction u with
  | nil => cases h
  | cons x u' ih =>
    rw [List.nodup_cons] at hn
    rcases List.mem_cons.mp h with hax | hau
    · subst hax
      rw [List.map_cons, List.sum_cons, if_pos (by simp), sum_indicator_zero hn.1]
    · have hax : ¬(a == x) = true := by
        simp only [beq_iff_eq]
        intro he; subst he; exact hn.1 hau
      rw [List.map_cons, List.sum_cons, if_neg hax, ih hn.2 hau]

theorem sum_counts (u : List String) (l : List String) (hn : u.Nodup)
    (hc : ∀ a ∈ l, a ∈ u) : ((u.map (fun t => l.count t)).sum = l.length) := by
  induction l with
  | nil => simp [List.count_nil, sum_map_zero u]
  | cons a l' ih =>
    have h1 : (u.map (fun t => (a :: l').count t)).sum
        = (u.map (fun t => l'.count t)).sum + (u.map (fun t => if a == t then 1 else 0)).sum := by
      rw [← sum_map_add]
      congr 1
      refine List.map_congr_left ?_
      intro t _
      rw [List.count_cons]
    rw [h1, ih (fun b hb => hc b (List.mem_cons_of_mem _ hb)),
      sum_indicator_one hn (hc a (List.mem_cons_self _ _))]
    simp

/-- C9: the `word_count` of an `AnalysisResult` equals the sum of the
counts in its frequency table: the table partitions the filtered token
stream. -/
theorem word_count_eq_sum_frequencies (text : String) (n : Int) (sw : List String) :
    (analyze_text text n sw).word_count
      = (((analyze_text text n sw).frequencies).map Prod.snd).sum := by
  show (remove_stopwords (tokenize text) sw 3).length
      = ((counter (remove_stopwords (tokenize text) sw 3)).map Prod.snd).sum
  rw [counter, counterKeys_eq_firstOccs, List.map_map]
  exact (sum_counts _ _ (firstOccs_nodup _) (fun a ha => mem_firstOccs.mpr ha)).symm

theorem find?_counter {keys : List String} {l : List String} {t : String} (h : t ∈ keys) :
    (keys.map (fun u => (u, l.count u))).find? (fun q => q.1 == t) = some (t, l.count t) := by
  induction keys with
  | nil => cases h
  | cons k ks ih =>
    rw [List.map_cons]
    by_cases hkt : k = t
    · subst hkt
      rw [List.find?_cons_of_pos _ (by simp)]
    · rw [List.find?_cons_of_neg _ (by simp [hkt])]
      exact ih (List.mem_cons.mp h |>.resolve_left (fun he => hkt he.symm))

theorem lookupCount_counter {l : List String} {t : String} (h : t ∈ l) :
    lookupCount (counter l) t = some (l.count t) := by
  have hk : t ∈ counterKeys l := by
    rw [counterKeys_eq_firstOccs]
    exact mem_firstOccs.mpr h
  rw [lookupCount, counter, find?_counter hk]
  rfl

theorem mem_counter {p : String × Nat} {l : List String} (h : p ∈ counter l) :
    p.2 = l.count p.1 ∧ p.1 ∈ l := by
  rw [counter, List.mem_map] at h
  obtain ⟨t, ht, rfl⟩ := h
  exact ⟨rfl, mem_firstOccs.mp (counterKeys_eq_firstOccs l ▸ ht)⟩

theorem mem_most_common {p : String × Nat} {c : List (String × Nat)} {n : Int}
    (h : p ∈ most_common c n) : p ∈ c := by
  rw [most_common] at h
  split at h
  · cases h
  · exact (sortByCountDesc_perm c).mem_iff.mp ((List.take_sublist _ _).subset h)

/-- C10: every `(token, count)` pair of the ranked list carries
exactly the frequency table's count for that token, every count is at
least 1, and the ranked tokens are pairwise distinct. -/
theorem ranked_entries_agree_with_frequencies (text : String) (n : Int) (sw : List String) :
    (∀ p ∈ (analyze_text text n sw).most_common,
        lookupCount (analyze_text text n sw).frequencies p.1 = some p.2 ∧ 1 ≤ p.2) ∧
    ((analyze_text text n sw).most_common.map Prod.fst).Nodup := by
  constructor
  · intro p hp
    have hp' : p ∈ counter (remove_stopwords (tokenize text) sw 3) := mem_most_common hp
    obtain ⟨hcnt, hmem⟩ := mem_counter hp'
    constructor
    · show lookupCount (counter (remove_stopwords (tokenize text) sw 3)) p.1 = some p.2
      rw [lookupCount_counter hmem, hcnt]
    · rw [hcnt]
      exact List.count_pos_iff.mpr hmem
  · show ((most_common (counter (remove_stopwords (tokenize text) sw 3)) n).map Prod.fst).Nodup
    rw [most_common]
    split
    · exact List.nodup_nil
    · refine List.Nodup.sublist (List.Sublist.map _ (List.take_sublist _ _)) ?_
      refine (((sortByCountDesc_perm _).map Prod.fst).nodup_iff).mpr ?_
      rw [counter_map_fst]
      exact firstOccs_nodup _

/-! ### Lemmas about the ranking file -/

theorem digitVal?_digitChar {d : Nat} (h : d < 10) : digitVal? (digitChar d) = some d := by
  have ht : (digitChar d).toNat = 48 + d := toNat_ofNat_lt (by omega)
  rw [digitVal?, ht, if_pos (by omega)]
  congr 1
  omega

/-- Big-endian decimal digits of `n` (empty for 0); proof-side
counterpart of `natDigitsCore`. -/
def digitsBE (n : Nat) : List Char :=
  if hz : n = 0 then [] else digitsBE (n / 10) ++ [digitChar (n % 10)]
termination_by n
decreasing_by exact Nat.div_lt_self (Nat.pos_of_ne_zero hz) (by decide)

theorem digitsBE_zero : digitsBE 0 = [] := by
  rw [digitsBE]
  rfl

theorem digitsBE_eq {n : Nat} (h : n ≠ 0) :
    digitsBE n = digitsBE (n / 10) ++ [digitChar (n % 10)] := by
  rw [digitsBE]
  exact dif_neg h

theorem natDigitsCore_eq_digitsBE :
    ∀ (fuel n : Nat) (acc : List Char), n ≤ fuel →
      natDigitsCore fuel n acc = digitsBE n ++ acc := by
  intro fuel
  induction fuel with
  | zero =>
    intro n acc h
    have hn : n = 0 := Nat.le_zero.mp h
    subst hn
    rw [natDigitsCore, digitsBE]
    simp
  | succ fuel ih =>
    intro n acc h
    by_cases hn : n = 0
    · subst hn
      rw [natDigitsCore, if_pos rfl, digitsBE]
      simp
    · rw [natDigitsCore, if_neg hn, ih (n / 10) _ (by omega)]
      conv_rhs => rw [digitsBE]
      rw [dif_neg hn]
      simp

theorem digitsBE_digits : ∀ (n : Nat), ∀ c ∈ digitsBE n, 48 ≤ c.toNat ∧ c.toNat ≤ 57 := by
  intro n
  induction n using Nat.strong_induction_on with
  | _ n ih =>
    intro c hc
    by_cases hn : n = 0
    · subst hn; rw [digitsBE] at hc; simp at hc
    · rw [digitsBE, dif_neg hn] at hc
      rcases List.mem_append.mp hc with h | h
      · exact ih (n / 10) (Nat.div_lt_self (Nat.pos_of_ne_zero hn) (by decide)) c h
      · rw [List.mem_singleton] at h
        subst h
        have ht : (digitChar (n % 10)).toNat = 48 + n % 10 :=
          toNat_ofNat_lt (by have := Nat.mod_lt n (y := 10) (by decide); omega)
        have := Nat.mod_lt n (y := 10) (Nat.pos_of_ne_zero (by decide))
        omega

theorem digitsBE_ne_nil {n : Nat} (h : 0 < n) : digitsBE n ≠ [] := by
  rw [digitsBE_eq (by omega)]
  simp

theorem parseNatAux_append {l1 l2 : List Char} {v w : Nat}
    (h : parseNatAux l1 v = some w) :
    parseNatAux (l1 ++ l2) v = parseNatAux l2 w := by
  induction l1 generalizing v with
  | nil =>
    rw [parseNatAux] at h
    cases h
    rfl
  | cons c cs ih =>
    rw [List.cons_append, parseNatAux]
    rw [parseNatAux] at h
    cases hd : digitVal? c with
    | some d =>
      rw [hd] at h
      exact ih h
    | none =>
      rw [hd] at h
      exact Option.noConfusion h

theorem parseNatAux_singleton {d : Nat} (h : d < 10) (v : Nat) :
    parseNatAux [digitChar d] v = some (10 * v + d) := by
  simp [parseNatAux, digitVal?_digitChar h]

theorem parseNatAux_digitsBE :
    ∀ (n : Nat), 0 < n → ∀ (v : Nat),
      parseNatAux (digitsBE n) v = some (v * 10 ^ (digitsBE n).length + n) := by
  intro n
  induction n using Nat.strong_induction_on with
  | _ n ih =>
    intro hn v
    by_cases hq : n / 10 = 0
    · have hlt : n < 10 := by omega
      rw [digitsBE_eq (by omega), hq, digitsBE_zero, List.nil_append,
        parseNatAux_singleton (show n % 10 < 10 by omega) v, List.length_singleton]
      congr 1
      rw [pow_one]
      omega
    · rw [digitsBE_eq (by omega)]
      have hrec := ih (n / 10) (Nat.div_lt_self hn (by decide)) (Nat.pos_of_ne_zero hq) v
      rw [parseNatAux_append hrec,
        parseNatAux_singleton (show n % 10 < 10 by omega) _]
      congr 1
      rw [List.length_append, List.length_singleton]
      have hdm : 10 * (n / 10) + n % 10 = n := Nat.div_add_mod n 10
      have hpow : (10 : Nat) ^ ((digitsBE (n / 10)).length + 1)
          = 10 ^ (digitsBE (n / 10)).length * 10 := Nat.pow_succ ..
      set k := (digitsBE (n / 10)).length
      calc 10 * (v * 10 ^ k + n / 10) + n % 10
          = v * (10 ^ k * 10) + (10 * (n / 10) + n % 10) := by ring
        _ = v * 10 ^ (k + 1) + n := by rw [hdm, hpow]

theorem parseNat?_decimalChars (n : Nat) : parseNat? (decimalChars n) = some n := by
  by_cases hn : n = 0
  · subst hn; decide
  · rw [decimalChars, if_neg hn,
      natDigitsCore_eq_digitsBE n n [] (Nat.le_refl n), List.append_nil, parseNat?,
      if_neg (digitsBE_ne_nil (Nat.pos_of_ne_zero hn)),
      parseNatAux_digitsBE n (Nat.pos_of_ne_zero hn) 0]
    simp

theorem decimalChars_digits (n : Nat) :
    ∀ c ∈ decimalChars n, 48 ≤ c.toNat ∧ c.toNat ≤ 57 := by
  intro c hc
  rw [decimalChars] at hc
  split at hc
  · rw [List.mem_singleton] at hc
    subst hc
    have : (digitChar 0).toNat = 48 := toNat_ofNat_lt (by omega)
    omega
  · rw [natDigitsCore_eq_digitsBE n n [] (Nat.le_refl n), List.append_nil] at hc
    exact digitsBE_digits n c hc

theorem splitOnChar_ne_nil (sep : Char) : ∀ (l : List Char), splitOnChar sep l ≠ [] := by
  intro l
  induction l with
  | nil => simp [splitOnChar]
  | cons c cs ih =>
    rw [splitOnChar]
    split
    · simp
    · cases h : splitOnChar sep cs with
      | nil => exact absurd h ih
      | cons r rs => simp [h]

theorem splitOnChar_sep_append {sep : Char} :
    ∀ (a rest : List Char), (∀ c ∈ a, c ≠ sep) →
      splitOnChar sep (a ++ sep :: rest) = a :: splitOnChar sep rest := by
  intro a
  induction a with
  | nil =>
    intro rest _
    rw [List.nil_append, splitOnChar, if_pos rfl]
  | cons c a' ih =>
    intro rest h
    have hc : c ≠ sep := h c (List.mem_cons_self _ _)
    rw [List.cons_append, splitOnChar, if_neg hc,
      ih rest (fun x hx => h x (List.mem_cons_of_mem _ hx))]

theorem splitOnChar_no_sep {sep : Char} :
    ∀ (l : List Char), (∀ c ∈ l, c ≠ sep) → splitOnChar sep l = [l] := by
  intro l
  induction l with
  | nil => intro _; rfl
  | cons c cs ih =>
    intro h
    rw [splitOnChar, if_neg (h c (List.mem_cons_self _ _)),
      ih (fun x hx => h x (List.mem_cons_of_mem _ hx))]

theorem splitOnChar_flatten_lines {sep : Char} :
    ∀ (lines : List (List Char)), (∀ l ∈ lines, sep ∉ l) →
      splitOnChar sep ((lines.map (fun l => l ++ [sep])).flatten) = lines ++ [[]] := by
  intro lines
  induction lines with
  | nil =>
    intro _
    rfl
  | cons l ls ih =>
    intro h
    rw [List.map_cons, List.flatten_cons, List.append_assoc, List.singleton_append,
      splitOnChar_sep_append l _ (fun c hc he => h l (List.mem_cons_self _ _) (by rw [← he]; exact hc)),
      ih (fun x hx => h x (List.mem_cons_of_mem _ hx))]
    rfl

theorem parseRow_nil : parseRow [] = none := rfl

theorem parseRow_row {p : String × Nat} (h : '\t' ∉ p.1.data) :
    parseRow (p.1.data ++ '\t' :: decimalChars p.2) = some p := by
  rw [parseRow]
  have hsplit : splitOnChar '\t' (p.1.data ++ '\t' :: decimalChars p.2)
      = [p.1.data, decimalChars p.2] := by
    rw [splitOnChar_sep_append p.1.data _ (fun c hc he => h (by rw [← he]; exact hc)),
      splitOnChar_no_sep _ (fun c hc he => by
        have := decimalChars_digits p.2 c hc
        rw [he] at this
        simp at this)]
  rw [hsplit]
  simp only [parseNat?_decimalChars p.2, Option.map_some']

theorem rows_filterMap :
    ∀ (mc : List (String × Nat)), (∀ p ∈ mc, '\t' ∉ p.1.data) →
      (mc.map (fun p => p.1.data ++ '\t' :: decimalChars p.2)).filterMap parseRow = mc := by
  intro mc
  induction mc with
  | nil => intro _; rfl
  | cons p mc' ih =>
    intro h
    rw [List.map_cons, List.filterMap_cons, parseRow_row (h p (List.mem_cons_self _ _)),
      ih (fun q hq => h q (List.mem_cons_of_mem _ hq))]

/-- C2 (amended): for every ranked list whose tokens contain no tab
and no newline character, the file written by `save_ranking` splits on
newlines into exactly the header line, the separator line and one
`token<TAB>count` line per pair in rank order, and parsing the data
rows by splitting each on the tab character reproduces the ranked list
exactly.  (The unrestricted claim is refuted by
`save_ranking_roundtrip_cex`.) -/
theorem save_ranking_roundtrip (mc : List (String × Nat))
    (h : ∀ p ∈ mc, '\n' ∉ p.1.data ∧ '\t' ∉ p.1.data) :
    splitOnChar '\n' (save_ranking mc).data
        = (rankingLines mc).map String.data ++ [[]] ∧
    parseRanking (save_ranking mc) = mc := by
  have hlines : ∀ l ∈ (rankingLines mc).map String.data, '\n' ∉ l := by
    intro l hl
    rw [List.mem_map] at hl
    obtain ⟨s, hs, rfl⟩ := hl
    rw [rankingLines] at hs
    rcases List.mem_cons.mp hs with rfl | hs'
    · decide
    rcases List.mem_cons.mp hs' with rfl | hs''
    · decide
    rw [List.mem_map] at hs''
    obtain ⟨p, hp, rfl⟩ := hs''
    intro hmem
    rcases List.mem_append.mp hmem with h1 | h1
    · exact (h p hp).1 h1
    rcases List.mem_cons.mp h1 with h2 | h2
    · exact absurd h2 (by decide)
    · exact absurd (decimalChars_digits p.2 _ h2) (by decide)
  have hflat : (save_ranking mc).data
      = (((rankingLines mc).map String.data).map (fun l => l ++ ['\n'])).flatten := by
    rw [save_ranking, List.map_map]
    rfl
  have hsplit : splitOnChar '\n' (save_ranking mc).data
      = (rankingLines mc).map String.data ++ [[]] := by
    rw [hflat, splitOnChar_flatten_lines _ hlines]
  refine ⟨hsplit, ?_⟩
  rw [parseRanking, hsplit, rankingLines]
  simp only [List.map_cons, List.map_map, List.cons_append, List.drop_succ_cons,
    List.drop_zero]
  rw [List.filterMap_append]
  have hrows : (mc.map ((fun l => l.data) ∘ fun p =>
      String.mk (p.1.data ++ '\t' :: decimalChars p.2))).filterMap parseRow = mc :=
    rows_filterMap mc (fun p hp => (h p hp).2)
  rw [hrows]
  simp [parseRow_nil]

/-- C2 counterexample: for a token containing a tab character the
written row splits into three fields, so parsing does not reproduce
the ranked list. -/
theorem save_ranking_roundtrip_cex :
    parseRanking (save_ranking [("a\tb", 1)]) ≠ [("a\tb", 1)] := by decide

theorem save_ranking_roundtrip_witness :
    (∀ p ∈ [("kata", 3), ("lain", 1)], '\n' ∉ p.1.data ∧ '\t' ∉ p.1.data) ∧
    (splitOnChar '\n' (save_ranking [("kata", 3), ("lain", 1)]).data
        = (rankingLines [("kata", 3), ("lain", 1)]).map String.data ++ [[]] ∧
     parseRanking (save_ranking [("kata", 3), ("lain", 1)]) = [("kata", 3), ("lain", 1)]) :=
  ⟨by decide, save_ranking_roundtrip _ (by decide)⟩

end TextAnalyzer
